import Mathlib

/-!
Verification development for the Aspargus video-pipeline engine.

The Rust sources are shallowly embedded: pure helpers become Lean functions
on `String`/`List Char`/`ℚ`/`Int`; subprocess and network effects become
explicit outcome oracles passed as arguments; the mutable `Aspargus` struct
becomes explicit state passing.  `f32` arithmetic is modelled by exact
rationals; `i32` counters are modelled as `Int` wrapped through `wrap32`
at every addition, the release-build two's-complement overflow semantics
of the source (debug builds would panic at the same point).
-/

namespace AspargusModel

/-! ## Calendar arithmetic

Model of the proleptic-Gregorian conversions used by chrono
(`DateTime::year`, `format("%m")`, `format("%d")`, RFC3339 parsing).
`civilFromDays`/`daysFromCivil` are the standard exact algorithms on days
since 1970-01-01; all intermediate quotients are floor divisions. -/

def civilFromDays (z0 : Int) : Int × Int × Int :=
  let z := z0 + 719468
  let era : Int := Int.fdiv z 146097
  let doe : Int := z - era * 146097
  let yoe : Int := Int.fdiv (doe - Int.fdiv doe 1460 + Int.fdiv doe 36524 - Int.fdiv doe 146096) 365
  let y : Int := yoe + era * 400
  let doy : Int := doe - (365 * yoe + Int.fdiv yoe 4 - Int.fdiv yoe 100)
  let mp : Int := Int.fdiv (5 * doy + 2) 153
  let d : Int := doy - Int.fdiv (153 * mp + 2) 5 + 1
  let m : Int := mp + (if mp < 10 then 3 else -9)
  (y + (if m ≤ 2 then 1 else 0), m, d)

def daysFromCivil (y0 m d : Int) : Int :=
  let y := y0 - (if m ≤ 2 then 1 else 0)
  let era : Int := Int.fdiv y 400
  let yoe : Int := y - era * 400
  let doy : Int := Int.fdiv (153 * (m + (if m > 2 then -3 else 9)) + 2) 5 + d - 1
  let doe : Int := yoe * 365 + Int.fdiv yoe 4 - Int.fdiv yoe 100 + doy
  era * 146097 + doe - 719468

/-- Model of chrono `DateTime<Utc>`, which stores seconds since the Unix
epoch together with the sub-second part in nanoseconds. -/
structure UtcDateTime where
  secs : Int
  nanos : Nat
deriving DecidableEq, Repr

/-- Epoch default, the value of `DateTime::<Utc>::default()` used by
`creation_date.unwrap_or_default()` in `Video::new`. -/
def UtcDateTime.epoch : UtcDateTime := ⟨0, 0⟩

def UtcDateTime.civil (t : UtcDateTime) : Int × Int × Int :=
  civilFromDays (Int.fdiv t.secs 86400)

def UtcDateTime.year (t : UtcDateTime) : Int := t.civil.1

def UtcDateTime.month (t : UtcDateTime) : Int := t.civil.2.1

def UtcDateTime.day (t : UtcDateTime) : Int := t.civil.2.2

/-- Two-digit zero padding, the behaviour of chrono format specifiers
`%m` and `%d` on the in-range values they are applied to. -/
def padZero2 (n : Int) : String :=
  if 0 ≤ n ∧ n < 10 then "0" ++ toString n else toString n

/-! ## Data model (`Video`, `Resume`)

Fields follow the `Video` struct of `src/mod.rs` (lines 22-46) together with
the `skip` flag used throughout `src/src/aspargus/mod.rs`. -/

structure Resume where
  title : String
  description : String
  keywords : List String
deriving DecidableEq, Repr

/-- Resume::default(): all fields empty. -/
def Resume.empty : Resume := ⟨"", "", []⟩

structure Video where
  id : String
  path : String
  story : String
  resume : Resume
  thumbnails : List String
  creation_date : UtcDateTime
  gap : Int
  numeric_id : Int
  skip : Bool
deriving DecidableEq, Repr

/-! ## Rust `str::replace`, specialised to the two-character `%X` tokens

The rename engine only ever replaces patterns of the exact form `"%X"`.
`replace2 x rep` is Rust `s.replace(&format("%{x}"), rep)`: scan left to
right, replace each non-overlapping occurrence of `'%', x`, and never
rescan already-produced replacement text within the same pass. -/

def replace2 (x : Char) (rep : List Char) : List Char → List Char
  | [] => []
  | [c] => [c]
  | '%' :: c :: rest =>
    if c = x then rep ++ replace2 x rep rest
    else '%' :: replace2 x rep (c :: rest)
  | c :: rest => c :: replace2 x rep rest

def rustReplaceTok (s : String) (x : Char) (rep : String) : String :=
  String.mk (replace2 x rep.data s.data)

/-! ## Path handling

Model of the `std::path` operations used by `file_management.rs`, for POSIX
path strings without `.`/`..` components, repeated separators or trailing
separators — the only shapes the program produces and the claims mention. -/

/-- Splits a character list at the last occurrence of `c`:
`splitLastOn c l = some (pre, post)` with `l = pre ++ c :: post` and
`c ∉ post`; `none` when `c` does not occur. -/
def splitLastOn (c : Char) : List Char → Option (List Char × List Char)
  | [] => none
  | x :: rest =>
    match splitLastOn c rest with
    | some (pre, post) => some (x :: pre, post)
    | none => if x = c then some ([], rest) else none

/-- Model of `Path::parent` (restricted as described above): strip the last
component; `none` for the root and the empty path. -/
def path_parent (p : String) : Option String :=
  if p = "" ∨ p = "/" then none
  else
    match splitLastOn '/' p.data with
    | none => some ""
    | some (pre, _) => some (if pre = [] then "/" else String.mk pre)

/-- Model of `Path::file_name` (restricted): the part after the last
separator. -/
def path_file_name (p : String) : Option String :=
  let name := match splitLastOn '/' p.data with
    | none => p.data
    | some (_, post) => post
  if name = [] then none else some (String.mk name)

/-- Rust file-name splitting: `file_stem`/`extension` split the name at its
last dot, except that a lone leading dot belongs to the stem. -/
def file_stem_ext (name : List Char) : List Char × Option (List Char) :=
  match name with
  | [] => ([], none)
  | c :: rest =>
    match splitLastOn '.' rest with
    | none => (name, none)
    | some (pre, post) => (c :: pre, some post)

/-- Model of `Path::extension` composed from the pieces above. -/
def path_extension (p : String) : Option String :=
  match path_file_name p with
  | none => none
  | some name => (file_stem_ext name.data).2.map String.mk

/-- Model of `PathBuf::push` for a relative component. -/
def path_push (base comp : String) : String :=
  if base = "" then comp
  else if base.data.getLast? = some '/' then base ++ comp
  else base ++ "/" ++ comp

/-- file_management::get_file_name — `file_stem().unwrap_or_default()`. -/
def get_file_name (file_path : String) : String :=
  match path_file_name file_path with
  | none => ""
  | some name => String.mk (file_stem_ext name.data).1

/-- file_management::create_new_path (lines 56-69).  The source computes
`format("{new_name}.{extension_or_empty}")` — the dot is appended
unconditionally — and joins it onto `parent.unwrap()`.  `none` models the
panic of `parent().unwrap()` on a parentless path. -/
def create_new_path (file_path new_name : String) : Option String :=
  let extension := (path_extension file_path).getD ""
  let new_file_name := new_name ++ "." ++ extension
  (path_parent file_path).map (fun parent => path_push parent new_file_name)

/-- file_management::create_new_file_name (lines 91-110): seven chained
global replacements in the fixed order Y, M, D, T, K, J, F. -/
def create_new_file_name (video : Video) (template : String) : String :=
  let d := video.creation_date
  let n := rustReplaceTok template 'Y' (toString d.year)
  let n := rustReplaceTok n 'M' (padZero2 d.month)
  let n := rustReplaceTok n 'D' (padZero2 d.day)
  let n := rustReplaceTok n 'T' video.resume.title
  let n := rustReplaceTok n 'K' (String.intercalate "-" video.resume.keywords)
  let n := rustReplaceTok n 'J' (String.intercalate ", " video.resume.keywords)
  let n := rustReplaceTok n 'F' (get_file_name video.path)
  n

/-! ## Sampling gap and the ffmpeg invocation -/

/-- aspargus_helper::get_capture_gap (lines 336-339): `(duration / 3.0).floor()
as i32`, with `f32` arithmetic modelled by exact rationals.  The division by 3
is written with `mkRat` on the numerator/denominator representation (which is
the computable rational division); `get_capture_gap_eq_floor` below restates
it as `⌊duration / 3⌋`. -/
def get_capture_gap (duration : ℚ) : Int :=
  Rat.floor (mkRat duration.num (3 * duration.den))

theorem get_capture_gap_eq_floor (d : ℚ) : get_capture_gap d = ⌊d / 3⌋ := by
  unfold get_capture_gap
  rw [Rat.floor_def' , ← Rat.floor_def, Rat.mkRat_eq_div]
  congr 1
  have hden : ((d.den : ℚ)) ≠ 0 := by positivity
  have h : (d.num : ℚ) = d * d.den := (div_eq_iff hden).mp (Rat.num_div_den d)
  rw [div_eq_div_iff]
  · rw [h]
    push_cast
    ring
  · push_cast
    positivity
  · positivity

/-- The `-vf` filter string built in `extract_frames_for_video` (lines 62-63):
`"fps=1/"` followed by the raw, unclamped gap. -/
def fps_filter (gap : Int) : String := "fps=1/" ++ toString gap

/-- The ffmpeg argument list built in `extract_frames_for_video`
(lines 57-69). -/
def extract_frames_args (temp_folder : String) (video : Video) : List String :=
  ["-i", video.path, "-vf", fps_filter video.gap,
    path_push temp_folder (video.id ++ "_%04d.png")]

/-! ## Number and timestamp parsing

Models of `f32::from_str` (values kept as exact rationals; the special
forms `inf`/`nan`/hex are not modelled, they never occur in probe output)
and of chrono `DateTime::parse_from_rfc3339` followed by `.to_utc()`
(leap-second inputs, which chrono encodes through the nanosecond field,
are not modelled). -/

def digitsToNat (ds : List Char) : Nat :=
  ds.foldl (fun acc c => acc * 10 + (c.toNat - '0'.toNat)) 0

/-- Splits a leading run of decimal digits off a character list. -/
def takeDigits : List Char → List Char × List Char
  | [] => ([], [])
  | c :: rest =>
    if c.isDigit then
      let p := takeDigits rest
      (c :: p.1, p.2)
    else ([], c :: rest)

/-- Exact value of the decimal `m × 10 ^ e`, built with computable
rational operations. -/
def decToRat (m : Int) (e : Int) : ℚ :=
  if 0 ≤ e then ((m * 10 ^ e.toNat : Int) : ℚ) else mkRat m (10 ^ (-e).toNat)

/-- Model of `str::parse::<f32>` on decimal inputs:
`[+-]? digits [. digits]? [(e|E) [+-]? digits]?`, requiring at least one
digit in the mantissa; the value is the exact rational. -/
def parse_f32 (s : String) : Option ℚ :=
  let l0 := s.data
  let sp : Int × List Char :=
    match l0 with
    | '+' :: rest => (1, rest)
    | '-' :: rest => (-1, rest)
    | l => (1, l)
  let ip := takeDigits sp.2
  let fp : List Char × List Char :=
    match ip.2 with
    | '.' :: rest => takeDigits rest
    | l => ([], l)
  if ip.1 = [] ∧ fp.1 = [] then none
  else
    let mantissa : Int := sp.1 * (digitsToNat (ip.1 ++ fp.1) : Int)
    let fracLen : Int := (fp.1.length : Int)
    match fp.2 with
    | [] => some (decToRat mantissa (-fracLen))
    | 'e' :: rest => parseExponent mantissa fracLen rest
    | 'E' :: rest => parseExponent mantissa fracLen rest
    | _ => none
where
  parseExponent (mantissa fracLen : Int) (l : List Char) : Option ℚ :=
    let sp : Int × List Char :=
      match l with
      | '+' :: rest => (1, rest)
      | '-' :: rest => (-1, rest)
      | l => (1, l)
    let ep := takeDigits sp.2
    if ep.1 = [] ∨ ep.2 ≠ [] then none
    else some (decToRat mantissa (sp.1 * (digitsToNat ep.1 : Int) - fracLen))

/-- Parses exactly `n` decimal digits into the accumulator, returning their
value and the rest of the input. -/
def parseNDigitsAcc : Nat → Nat → List Char → Option (Nat × List Char)
  | acc, 0, l => some (acc, l)
  | _, _ + 1, [] => none
  | acc, n + 1, c :: rest =>
    if c.isDigit then parseNDigitsAcc (acc * 10 + (c.toNat - '0'.toNat)) n rest
    else none

def isLeapYear (y : Int) : Bool :=
  (Int.emod y 4 = 0 ∧ Int.emod y 100 ≠ 0) ∨ Int.emod y 400 = 0

def daysInMonth (y m : Int) : Int :=
  if m = 2 then (if isLeapYear y then 29 else 28)
  else if m = 4 ∨ m = 6 ∨ m = 9 ∨ m = 11 then 30
  else 31

/-- Expects a single character, consuming it. -/
def expectChar (c : Char) : List Char → Option (List Char)
  | [] => none
  | x :: rest => if x = c then some rest else none

/-- Parses the fractional-second part: a dot followed by at least one digit;
the first nine digits give the nanosecond value (missing places are
zero-filled, further digits are truncated, as chrono does). -/
def parseFraction (l : List Char) : Nat × List Char :=
  match l with
  | '.' :: rest =>
    let p := takeDigits rest
    if p.1 = [] then (0, l)
    else (digitsToNat ((p.1 ++ List.replicate 9 '0').take 9), p.2)
  | _ => (0, l)

/-- Parses the RFC3339 offset suffix, returning its value in seconds. -/
def parseOffset : List Char → Option Int
  | ['Z'] => some 0
  | ['z'] => some 0
  | sgn :: rest =>
    if sgn = '+' ∨ sgn = '-' then
      match parseNDigitsAcc 0 2 rest with
      | some (hh, rest1) =>
        match expectChar ':' rest1 with
        | some rest2 =>
          match parseNDigitsAcc 0 2 rest2 with
          | some (mm, []) =>
            if hh < 24 ∧ mm < 60 then
              some ((if sgn = '-' then -1 else 1) * ((hh : Int) * 3600 + (mm : Int) * 60))
            else none
          | _ => none
        | none => none
      | none => none
    else none
  | _ => none

/-- Model of `DateTime::parse_from_rfc3339(value)` followed by `.to_utc()`:
`YYYY-MM-DD(T|t)hh:mm:ss[.frac](Z|z|±hh:mm)` with field validation, the
result converted to UTC seconds since the epoch plus nanoseconds. -/
def parse_rfc3339 (s : String) : Option UtcDateTime :=
  match parseNDigitsAcc 0 4 s.data with
  | none => none
  | some (y, r1) =>
    match expectChar '-' r1 with
    | none => none
    | some r2 =>
      match parseNDigitsAcc 0 2 r2 with
      | none => none
      | some (mo, r3) =>
        match expectChar '-' r3 with
        | none => none
        | some r4 =>
          match parseNDigitsAcc 0 2 r4 with
          | none => none
          | some (d, r5) =>
            match r5 with
            | [] => none
            | t :: r6 =>
              if t = 'T' ∨ t = 't' then
                match parseNDigitsAcc 0 2 r6 with
                | none => none
                | some (hh, r7) =>
                  match expectChar ':' r7 with
                  | none => none
                  | some r8 =>
                    match parseNDigitsAcc 0 2 r8 with
                    | none => none
                    | some (mi, r9) =>
                      match expectChar ':' r9 with
                      | none => none
                      | some r10 =>
                        match parseNDigitsAcc 0 2 r10 with
                        | none => none
                        | some (se, r11) =>
                          let fr := parseFraction r11
                          match parseOffset fr.2 with
                          | none => none
                          | some off =>
                            if 1 ≤ mo ∧ mo ≤ 12 ∧ 1 ≤ d ∧
                                (d : Int) ≤ daysInMonth (y : Int) (mo : Int) ∧
                                hh ≤ 23 ∧ mi ≤ 59 ∧ se ≤ 59 then
                              some ⟨daysFromCivil (y : Int) (mo : Int) (d : Int) * 86400 +
                                      (hh : Int) * 3600 + (mi : Int) * 60 + (se : Int) - off,
                                    fr.1⟩
                            else none
              else none

/-! ## Probe-output parsing (aspargus_helper.rs lines 265-327) -/

/-- The duplicate-line filter of `get_video_metadata` (lines 294-300):
`filter(|item| set.insert(item.clone()))` keeps a line exactly when it has
not been seen before. -/
def dedupFirstAux (seen : List String) : List String → List String
  | [] => []
  | x :: rest =>
    if x ∈ seen then dedupFirstAux seen rest
    else x :: dedupFirstAux (x :: seen) rest

def dedupFirst (lines : List String) : List String := dedupFirstAux [] lines

/-- Specification-side description of the same filter, written from the
words of the spec: remove duplicate lines, keeping the first occurrence of
each. -/
def keepFirstOccurrences : List String → List String
  | [] => []
  | x :: rest => x :: keepFirstOccurrences (rest.filter (fun y => y ≠ x))
termination_by l => l.length
decreasing_by
  simp only [List.length_cons]
  exact Nat.lt_succ_of_le (List.length_filter_le _ _)

/-- The loop body of `parse_metadata_to_tuple`: a line is tried first as an
RFC3339 timestamp, else as a float, and a successful parse overwrites the
previous value of its kind. -/
def metadata_step (acc : Option ℚ × Option UtcDateTime) (value : String) :
    Option ℚ × Option UtcDateTime :=
  match parse_rfc3339 value with
  | some date => (acc.1, some date)
  | none =>
    match parse_f32 value with
    | some num => (some num, acc.2)
    | none => acc

/-- aspargus_helper::parse_metadata_to_tuple (lines 312-327): iterate over
the lines in list order, starting from two absent values. -/
def parse_metadata_to_tuple (values : List String) : Option ℚ × Option UtcDateTime :=
  values.foldl metadata_step (none, none)

/-- Specification-side value of the duration: the last line that fails the
timestamp parse and succeeds as a float. -/
def specLastDuration (values : List String) : Option ℚ :=
  (values.filterMap
    (fun v => if (parse_rfc3339 v).isSome then none else parse_f32 v)).getLast?

/-- Specification-side value of the creation date: the last line that
parses as an RFC3339 timestamp. -/
def specLastCreationDate (values : List String) : Option UtcDateTime :=
  (values.filterMap parse_rfc3339).getLast?

/-! ## extract_json (aspargus_helper.rs lines 348-352)

The source calls `Regex::new(r"\{(?:[^\x7b\x7d]*|(?R))*\}")` — written
there with literal braces — and returns the first match.  The repository
does not pin its dependencies under `src/`; with the regex crate as
resolved at the repository date (1.8 or later), `(?R)` is a flags group
setting the CRLF flag, which matches the empty string (the crate has no
recursion), so the pattern accepts exactly `\{[^\x7b\x7d]*\}`: one pair of
braces with no brace between them.  `re.find` returns the leftmost such
match.  `flatBody`/`findFlatMatch` implement exactly that. -/

def flatBody : List Char → Option (List Char)
  | [] => none
  | c :: rest =>
    if c = '}' then some []
    else if c = '{' then none
    else (flatBody rest).map (fun l => c :: l)

def findFlatMatch : List Char → Option (List Char)
  | [] => none
  | c :: rest =>
    if c = '{' then
      match flatBody rest with
      | some body => some ('{' :: (body ++ ['}']))
      | none => findFlatMatch rest
    else findFlatMatch rest

def extract_json (input : String) : Option String :=
  (findFlatMatch input.data).map String.mk

/-- Specification-side function, written from the words of the spec: the
first outermost balanced-brace substring of the input.  `balancedFrom d l`
consumes `l` until the depth-`d` opening braces are all closed. -/
def balancedFrom : Nat → List Char → Option (List Char)
  | _, [] => none
  | d, c :: rest =>
    if c = '{' then (balancedFrom (d + 1) rest).map (fun l => c :: l)
    else if c = '}' then
      if d = 1 then some [c] else (balancedFrom (d - 1) rest).map (fun l => c :: l)
    else (balancedFrom d rest).map (fun l => c :: l)

def firstOutermostBalanced : List Char → Option (List Char)
  | [] => none
  | c :: rest =>
    if c = '{' then
      match balancedFrom 1 rest with
      | some tail => some ('{' :: tail)
      | none => firstOutermostBalanced rest
    else firstOutermostBalanced rest

def extractJsonSpec (input : String) : Option String :=
  (firstOutermostBalanced input.data).map String.mk

/-! ## Error types (mod.rs lines 19-25, aspargus_helper.rs lines 16-22)

Messages that contain an apostrophe in the source are paraphrased without
one; no claim depends on message text. -/

inductive VideoDataError
  | FFMpegNotFoundError (cause : String)
  | FrameExtractionError (cause : String)
  | FFProbeNotFoundError (cause : String)
  | MetadataExtractionError (cause : String)
deriving DecidableEq, Repr

inductive AspargusError
  | Io (msg : String)
  | ParseError (msg : String)
  | GenericError (msg : String)
  | ProcessingError (msg : String)
deriving DecidableEq, Repr

instance {ε α : Type} [DecidableEq ε] [DecidableEq α] : DecidableEq (Except ε α) :=
  fun a b =>
    match a, b with
    | .error e, .error f =>
      if h : e = f then .isTrue (by rw [h]) else .isFalse (fun hh => h (by cases hh; rfl))
    | .ok x, .ok y =>
      if h : x = y then .isTrue (by rw [h]) else .isFalse (fun hh => h (by cases hh; rfl))
    | .error _, .ok _ => .isFalse (fun hh => by cases hh)
    | .ok _, .error _ => .isFalse (fun hh => by cases hh)

/-! ## Admission (mod.rs lines 171-277)

The ffprobe subprocess is an external collaborator; its behaviour on a
given path is an oracle value of type `ProbeOutcome`: the binary can be
absent (`io::ErrorKind::NotFound` on spawn), the spawn can fail for another
reason, or the probe runs and produces stdout lines (the current
`get_video_metadata` never inspects the exit status, so a failed run is
just an empty or unparseable line list).  The md5 path hash
(chksum_hash_md5) is an external pure function, passed in as `hash`. -/

inductive ProbeOutcome
  | binaryMissing
  | spawnFailure
  | ran (lines : List String)
deriving DecidableEq, Repr

structure AdmissionInput where
  path : String
  isFile : Bool
  probe : ProbeOutcome
deriving DecidableEq, Repr

/-- aspargus_helper::get_video_metadata (lines 265-303): spawn-level
errors are mapped to the two probe error variants; a run yields the
deduplicated, parsed stdout lines. -/
def get_video_metadata (probe : ProbeOutcome) (video_path : String) :
    Except VideoDataError (Option ℚ × Option UtcDateTime) :=
  match probe with
  | .binaryMissing =>
    .error (.FFProbeNotFoundError "FFProbe is missing, we are stopping here. Please install FFMpeg and FFProbe and make sure they are in the path.")
  | .spawnFailure =>
    .error (.MetadataExtractionError ("Could not run FFmpeg for file " ++ video_path))
  | .ran lines => .ok (parse_metadata_to_tuple (dedupFirst lines))

/-- Modelled from the spec: the file `video.rs` (declared as `mod video;`
in src/src/aspargus/mod.rs and used there through `Video::new`) is absent
from src/.  Following §3 and §4.1 of the spec: admission runs the metadata
probe; a probe error propagates; if the probe runs but yields no parseable
values, admission fails for this file only; otherwise the video is built
with `creation_date` defaulting to the epoch, `gap = floor(duration/3)`
(0 when the duration is unknown), an empty story/resume/thumbnails and
`skip = false`. -/
def Video.new (hash : String → String) (probe : ProbeOutcome) (path : String)
    (numeric_id : Int) : Except VideoDataError Video :=
  match get_video_metadata probe path with
  | .error e => .error e
  | .ok (duration, creation) =>
    if duration = none ∧ creation = none then
      .error (.MetadataExtractionError ("Error while extracting metadata for: " ++ path))
    else
      .ok { id := hash path, path := path, story := "", resume := Resume.empty,
            thumbnails := [], creation_date := creation.getD UtcDateTime.epoch,
            gap := get_capture_gap (duration.getD 0), numeric_id := numeric_id,
            skip := false }

/-- Two's-complement wrap-around of `i32` arithmetic: the release-build
semantics of an overflowing `+` in the source (`Int.emod` is Euclidean, so
the result is always in `[-2^31, 2^31)`). -/
def wrap32 (n : Int) : Int := (n + 2147483648) % 4294967296 - 2147483648

structure AspargusState where
  videos : List Video
  videos_number : Int
deriving DecidableEq, Repr

def AspargusState.initial : AspargusState := ⟨[], 0⟩

/-- Aspargus::get_new_video_numeric_id (mod.rs lines 190-196):
`last().unwrap().numeric_id + 1` on `i32` when the list is nonempty, else
1; the addition wraps at `i32::MAX`. -/
def get_new_video_numeric_id (st : AspargusState) : Int :=
  match st.videos.getLast? with
  | some v => wrap32 (v.numeric_id + 1)
  | none => 1

/-- Aspargus::add_video (mod.rs lines 247-277).  When the path is not an
existing regular file the function logs and returns `ProcessingError`.
Otherwise `Video::new` runs; `FFProbeNotFoundError` becomes the fatal
`GenericError`, `FrameExtractionError` is logged only, and every other
`VideoDataError` (including `MetadataExtractionError`) falls into the
silent `_ => ()` arm — in both of those cases the video is dropped and the
call still returns `Ok`.  The source's remaining branch (an error that is
not a `VideoDataError`) cannot arise in the model, where `Video::new` only
produces `VideoDataError`s. -/
def add_video (hash : String → String) (st : AspargusState) (inp : AdmissionInput) :
    AspargusState × Except AspargusError Unit :=
  if inp.isFile then
    match Video.new hash inp.probe inp.path (get_new_video_numeric_id st) with
    | .ok video => ({ st with videos := st.videos ++ [video] }, .ok ())
    | .error e =>
      match e with
      | .FFProbeNotFoundError _ =>
        (st, .error (.GenericError "FFProbe is not found, we are quitting for now. Please install FFMpeg and FFProbe and put them in the path."))
      | .FrameExtractionError _ => (st, .ok ())
      | _ => (st, .ok ())
  else
    (st, .error (.ProcessingError ("File " ++ inp.path ++ " does not exist or is not a file, and therefore will be ignored.")))

/-- Aspargus::add_videos (mod.rs lines 174-185): iterate over the paths;
on `Ok` increment the `i32` counter `videos_number` (wrapping), on `Err`
log and return the error immediately — the remaining paths are never
submitted. -/
def add_videos (hash : String → String) (st : AspargusState) :
    List AdmissionInput → AspargusState × Except AspargusError Unit
  | [] => (st, .ok ())
  | inp :: rest =>
    match add_video hash st inp with
    | (st1, .ok _) =>
      add_videos hash { st1 with videos_number := wrap32 (st1.videos_number + 1) } rest
    | (st1, .error e) => (st1, .error e)

/-- One admission attempt as performed by the `add_videos` loop body
(state part): `videos_number` is incremented on success. -/
def admission_step (hash : String → String) (s : AspargusState)
    (inp : AdmissionInput) : AspargusState :=
  let r := add_video hash s inp
  match r.2 with
  | .ok _ => { r.1 with videos_number := wrap32 (r.1.videos_number + 1) }
  | .error _ => r.1

/-- An arbitrary sequence of `add_video` admission attempts (the errors are
inspected but never stop the sequence); this covers every catalog reachable
through admissions, with failures interleaved arbitrarily. -/
def admissions (hash : String → String) (inputs : List AdmissionInput)
    (st : AspargusState) : AspargusState :=
  inputs.foldl (admission_step hash) st

/-- Specification-side sequence `[k, k + 1, ..., k + n - 1]`, used to state
the numeric-id invariant. -/
def seqIds : Int → Nat → List Int
  | _, 0 => []
  | k, n + 1 => k :: seqIds (k + 1) n

/-- The numeric-id invariant: the ids in catalog order are exactly the
wrapped sequence `wrap32 1, wrap32 2, ..., wrap32 n` (which is
`1, 2, ..., n` while the catalog stays below `2^31` videos). -/
def idsOk (st : AspargusState) : Prop :=
  st.videos.map (fun v => v.numeric_id) = (seqIds 1 st.videos.length).map wrap32

/-! ## Frame extraction (mod.rs lines 280-322, aspargus_helper.rs lines 53-85)

The ffmpeg subprocess outcome for one video is an oracle: the binary can
be absent (`NotFound` on spawn — `FFMpegNotFoundError`, the fatal case),
the spawn can fail otherwise (`FrameExtractionError` — the per-video skip
case), or the process runs and `status()` returns `Ok` — the source never
inspects the exit code, so any completed run yields `Ok` with whatever
thumbnails the glob finds (possibly none).

`extract_frames` runs over all videos with `par_iter_mut`; each worker
touches only its own video and the shared mutex-guarded first-error cell.
The model executes the per-video steps in an explicit `order`; any
permutation of the indices represents one parallel schedule. -/

inductive FfmpegOutcome
  | binaryMissing
  | spawnFailure
  | ran (thumbnails : List String)
deriving DecidableEq, Repr

def ffmpegFatalText : String :=
  "FFMpeg is not found, we are quitting for now. Please install FFMpeg and FFProbe and put them in the path."

/-- The per-video effect of one worker (mod.rs lines 289-313): on success
store the thumbnails; on `FrameExtractionError` set `skip`; on the fatal
error leave the video untouched (only the error cell is written). -/
def applyFfmpeg (o : FfmpegOutcome) (v : Video) : Video :=
  match o with
  | .binaryMissing => v
  | .spawnFailure => { v with skip := true }
  | .ran thumbnails => { v with thumbnails := thumbnails }

/-- The mutex-guarded single-assignment error cell (mod.rs lines 297-302):
only the first `FFMpegNotFoundError` writer stores the (constant) fatal
message. -/
def recordFatal (o : FfmpegOutcome) (holder : Option String) : Option String :=
  match o with
  | .binaryMissing => if holder = none then some ffmpegFatalText else holder
  | _ => holder

def ffStep (outcome : Nat → FfmpegOutcome) (acc : List Video × Option String)
    (i : Nat) : List Video × Option String :=
  match acc.1[i]? with
  | none => acc
  | some v => (acc.1.set i (applyFfmpeg (outcome i) v), recordFatal (outcome i) acc.2)

def extract_frames_ordered (outcome : Nat → FfmpegOutcome) (order : List Nat)
    (vs : List Video) : List Video × Option String :=
  order.foldl (ffStep outcome) (vs, none)

/-- Aspargus::extract_frames (mod.rs lines 280-322): run all workers, then
return the held fatal error (wrapped as in line 318) if one was recorded. -/
def extract_frames (outcome : Nat → FfmpegOutcome) (st : AspargusState) :
    AspargusState × Except AspargusError Unit :=
  let r := extract_frames_ordered outcome (List.range st.videos.length) st.videos
  ({ st with videos := r.1 },
   match r.2 with
   | some msg => .error (.ProcessingError ("Error while extracting frames: " ++ msg))
   | none => .ok ())

/-! ## Model stages and rename (mod.rs lines 325-510)

The two Ollama endpoints are external collaborators; a stage response for
video index `i` is an oracle value.  Each loop body touches only its own
video, so the sequential loops are modelled by an index-aware map. -/

def mapWithIdx (f : Nat → Video → Video) : Nat → List Video → List Video
  | _, [] => []
  | i, v :: rest => f i v :: mapWithIdx f (i + 1) rest

/-- Indices of the videos a sequential stage issues a model call for. -/
def indicesWhere (p : Video → Bool) : Nat → List Video → List Nat
  | _, [] => []
  | i, v :: rest =>
    if p v then i :: indicesWhere p (i + 1) rest else indicesWhere p (i + 1) rest

/-- Aspargus::run_computer_vision_model (mod.rs lines 325-358): skipped
videos are bypassed; otherwise a successful call stores the story and a
failed call only logs. -/
def run_computer_vision_model (resp : Nat → Option String) (st : AspargusState) :
    AspargusState :=
  { st with
    videos := mapWithIdx
      (fun i v =>
        if v.skip then v
        else
          match resp i with
          | some story => { v with story := story }
          | none => v)
      0 st.videos }

/-- The calls issued by `run_computer_vision_model` and
`run_only_computer_vision_model`: one per non-skipped video. -/
def cv_model_calls (st : AspargusState) : List Nat :=
  indicesWhere (fun v => !v.skip) 0 st.videos

/-- Aspargus::run_only_computer_vision_model (mod.rs lines 361-394): same
gating, a successful call stores the resume.  The response oracle already
accounts for `extract_json` and JSON decoding of the response body. -/
def run_only_computer_vision_model (resp : Nat → Option Resume) (st : AspargusState) :
    AspargusState :=
  { st with
    videos := mapWithIdx
      (fun i v =>
        if v.skip then v
        else
          match resp i with
          | some resume => { v with resume := resume }
          | none => v)
      0 st.videos }

/-- Aspargus::run_resume_model (mod.rs lines 397-450) together with
`run_resume_model_for_video` (aspargus_helper.rs lines 99-123): skipped
videos are bypassed; an empty story fails before any call; otherwise a
successful call stores the resume. -/
def run_resume_model (resp : Nat → Option Resume) (st : AspargusState) :
    AspargusState :=
  { st with
    videos := mapWithIdx
      (fun i v =>
        if v.skip then v
        else if v.story = "" then v
        else
          match resp i with
          | some resume => { v with resume := resume }
          | none => v)
      0 st.videos }

/-- The calls issued by `run_resume_model`: one per non-skipped video with
a nonempty story. -/
def resume_model_calls (st : AspargusState) : List Nat :=
  indicesWhere (fun v => !v.skip && !(v.story = "")) 0 st.videos

/-- Aspargus::rename_videos (mod.rs lines 490-510): for every video — with
no skip check — compute the new name and path and attempt the filesystem
move; the result is only logged, and no field of any video is written (in
particular `path` keeps its old value even after a successful move).  The
returned list holds one attempted move per video, in order; `none` as a
target models the `unwrap` panic of `create_new_path` on a parentless
path. -/
def rename_videos (template : String) (st : AspargusState) :
    AspargusState × List (String × Option String) :=
  (st,
   st.videos.map (fun v =>
     (v.path, create_new_path v.path (create_new_file_name v template))))

/-! ## JSON export (mod.rs lines 462-484, Video struct of src/mod.rs lines 22-46)

`serde_json::to_string_pretty(&self.videos)` renders the serde view of the
video list.  The model works on the JSON value produced by `Serialize`:
re-parsing the pretty-printed text is serde_json rendering composed with
parsing, which returns this same value.  Only the constructors the export
can produce are needed. -/

inductive Json
  | str (s : String)
  | arr (items : List Json)
  | obj (fields : List (String × Json))

/-- Serde view of `Resume` (all three fields serialized, declaration
order). -/
def Resume.toJson (r : Resume) : Json :=
  .obj [("title", .str r.title), ("description", .str r.description),
        ("keywords", .arr (r.keywords.map Json.str))]

/-- Serde view of `Video` per the attributes on the struct in src/mod.rs
lines 22-46: every field except `path` and `resume` carries
`#[serde(skip_serializing)]`; the `skip` flag (whose declaring file
video.rs is absent from src/) is likewise internal-only per §4.5 of the
spec. -/
def Video.toJson (v : Video) : Json :=
  .obj [("path", .str v.path), ("resume", v.resume.toJson)]

/-- Aspargus::export_to_json, content part: the serialized catalog is the
array of serialized videos. -/
def export_to_json (videos : List Video) : Json :=
  .arr (videos.map Video.toJson)

/-! ### Re-parsing the export -/

def jsonField : List (String × Json) → String → Option Json
  | [], _ => none
  | f :: rest, k => if f.1 = k then some f.2 else jsonField rest k

def asString : Json → Option String
  | .str s => some s
  | _ => none

def asStringList : List Json → Option (List String)
  | [] => some []
  | j :: rest =>
    match asString j, asStringList rest with
    | some s, some l => some (s :: l)
    | _, _ => none

def decodeResume (j : Json) : Option Resume :=
  match j with
  | .obj fields =>
    match jsonField fields "title", jsonField fields "description",
        jsonField fields "keywords" with
    | some (.str t), some (.str d), some (.arr ks) =>
      (asStringList ks).map (fun l => ⟨t, d, l⟩)
    | _, _, _ => none
  | _ => none

def decodeEntry (j : Json) : Option (String × Resume) :=
  match j with
  | .obj fields =>
    match jsonField fields "path", jsonField fields "resume" with
    | some (.str p), some r => (decodeResume r).map (fun res => (p, res))
    | _, _ => none
  | _ => none

def decodeEntries : List Json → Option (List (String × Resume))
  | [] => some []
  | j :: rest =>
    match decodeEntry j, decodeEntries rest with
    | some e, some l => some (e :: l)
    | _, _ => none

/-- Re-parsing the exported document as a list of path/resume pairs. -/
def reparseExport (j : Json) : Option (List (String × Resume)) :=
  match j with
  | .arr items => decodeEntries items
  | _ => none

/-- The keys of a serialized object, used to state which fields an export
contains. -/
def jsonObjKeys (j : Json) : List String :=
  match j with
  | .obj fields => fields.map Prod.fst
  | _ => []

/-- The full pipeline as composed by main.rs lines 336-343: admissions,
frame extraction, then either the two-step or the single-step model stages
(renaming and export write no video fields). -/
def run_pipeline (hash : String → String) (inputs : List AdmissionInput)
    (outcome : Nat → FfmpegOutcome) (two_steps : Bool)
    (respCv : Nat → Option String) (respTxt : Nat → Option Resume)
    (respOnly : Nat → Option Resume) : AspargusState :=
  let st1 := (add_videos hash AspargusState.initial inputs).1
  let st2 := (extract_frames outcome st1).1
  if two_steps then run_resume_model respTxt (run_computer_vision_model respCv st2)
  else run_only_computer_vision_model respOnly st2

/-! ## Concrete instances used by the claim theorems -/

/-- A video whose duration was unknown at admission: `gap = 0`. -/
def c2GapZeroVideo : Video :=
  { id := "h2", path := "/v/zero.mp4", story := "", resume := Resume.empty,
    thumbnails := [], creation_date := UtcDateTime.epoch, gap := 0,
    numeric_id := 1, skip := false }

/-- A video whose title contains the literal token `%K`. -/
def c4TokenVideo : Video :=
  { id := "h4", path := "/v/f.mp4", story := "", resume := ⟨"a%Kb", "", ["k"]⟩,
    thumbnails := [], creation_date := UtcDateTime.epoch, gap := 0,
    numeric_id := 1, skip := false }

/-- The video of testable property 3 of the spec: title `"100% K done"`. -/
def c4SpecVideo : Video :=
  { id := "h4s", path := "/v/f.mp4", story := "",
    resume := ⟨"100% K done", "", ["zsolna", "velo"]⟩,
    thumbnails := [], creation_date := UtcDateTime.epoch, gap := 0,
    numeric_id := 1, skip := false }

/-- A video whose keyword list contains the literal token `%T`. -/
def c4OrderVideo : Video :=
  { id := "h4o", path := "/v/f.mp4", story := "", resume := ⟨"t", "", ["%T"]⟩,
    thumbnails := [], creation_date := UtcDateTime.epoch, gap := 0,
    numeric_id := 1, skip := false }

def c1Hash : String → String := fun _ => "h"

/-- A path that is not an existing regular file. -/
def c1Bad : AdmissionInput := ⟨"missing.mp4", false, .ran []⟩

/-- A path whose admission succeeds (probe yields a duration). -/
def c1Good : AdmissionInput := ⟨"present.mp4", true, .ran ["10.0"]⟩

def c7Hash : String → String := fun _ => "c7h"

/-- An admission input that always succeeds. -/
def c7Good : AdmissionInput := ⟨"v.mp4", true, .ran ["10.0"]⟩

/-- An admission input that always fails (not a regular file). -/
def c7Bad : AdmissionInput := ⟨"w.mp4", false, .ran []⟩

def c5VideoA : Video :=
  { id := "hA", path := "/v/a.mp4", story := "", resume := Resume.empty,
    thumbnails := [], creation_date := UtcDateTime.epoch, gap := 3,
    numeric_id := 1, skip := false }

def c5VideoB : Video :=
  { id := "hB", path := "/v/b.mp4", story := "", resume := Resume.empty,
    thumbnails := [], creation_date := UtcDateTime.epoch, gap := 3,
    numeric_id := 2, skip := false }

def c5State : AspargusState := ⟨[c5VideoA, c5VideoB], 2⟩

/-- Worker outcomes of testable property 6 of the spec: video A hits the
missing decoder binary, video B has a decoder run that produces nothing. -/
def c5Outcome : Nat → FfmpegOutcome :=
  fun i => if i = 0 then .binaryMissing else .ran []

/-- A catalog holding one already-skipped video. -/
def c6Skipped : Video :=
  { id := "h6", path := "/m/a.mp4", story := "", resume := Resume.empty,
    thumbnails := [], creation_date := UtcDateTime.epoch, gap := 0,
    numeric_id := 1, skip := true }

def c6State : AspargusState := ⟨[c6Skipped], 1⟩

def c9Input : AdmissionInput :=
  ⟨"p.mp4", true, .ran ["2023-05-01T10:00:00Z", "10.0"]⟩

/-- Frame extraction fails to spawn ffmpeg for the only video (a
non-NotFound error), which sets its skip flag. -/
def c9Outcome : Nat → FfmpegOutcome := fun _ => .spawnFailure

/-- The video the concrete C9 pipeline run produces: admitted from
`c9Input` (gap `⌊10/3⌋ = 3`), then skipped by frame extraction. -/
def c9SkippedVideo : Video :=
  { id := "h", path := "p.mp4", story := "", resume := Resume.empty,
    thumbnails := [], creation_date := ⟨1682935200, 0⟩, gap := 3,
    numeric_id := 1, skip := true }

/-! # Helper lemmas -/

theorem splitLastOn_eq_none {c : Char} : ∀ {l : List Char}, c ∉ l → splitLastOn c l = none := by
  intro l
  induction l with
  | nil => intro _; rfl
  | cons x rest ih =>
    intro h
    have hx : ¬(x = c) := fun hh => h (by simp [hh])
    have hr : c ∉ rest := fun hh => h (List.mem_cons_of_mem _ hh)
    simp [splitLastOn, ih hr, hx]

theorem splitLastOn_append {c : Char} (pre post : List Char) (h : c ∉ post) :
    splitLastOn c (pre ++ c :: post) = some (pre, post) := by
  induction pre with
  | nil => simp [splitLastOn, splitLastOn_eq_none h]
  | cons y pre ih => simp [splitLastOn, ih]

/-! ## Lemmas on the flat-brace scanner (extract_json) -/

theorem flatBody_sound : ∀ {l body : List Char}, flatBody l = some body →
    ∃ post, l = body ++ '}' :: post ∧ '{' ∉ body ∧ '}' ∉ body := by
  intro l
  induction l with
  | nil => intro body h; simp [flatBody] at h
  | cons c rest ih =>
    intro body h
    by_cases hc : c = '}'
    · subst hc
      simp [flatBody] at h
      subst h
      exact ⟨rest, rfl, by simp, by simp⟩
    · by_cases hb : c = '{'
      · subst hb; simp [flatBody] at h
      · rw [flatBody] at h
        simp only [hc, hb, if_false, Option.map_eq_some'] at h
        obtain ⟨body', hbody', rfl⟩ := h
        obtain ⟨post, rfl, h1, h2⟩ := ih hbody'
        refine ⟨post, by simp, ?_, ?_⟩
        · intro hmem
          rcases List.mem_cons.mp hmem with hh | hh
          · exact hb hh.symm
          · exact h1 hh
        · intro hmem
          rcases List.mem_cons.mp hmem with hh | hh
          · exact hc hh.symm
          · exact h2 hh

theorem flatBody_complete : ∀ (body post : List Char), '{' ∉ body → '}' ∉ body →
    flatBody (body ++ '}' :: post) = some body := by
  intro body
  induction body with
  | nil => intro post _ _; simp [flatBody]
  | cons c rest ih =>
    intro post h1 h2
    have hc : ¬(c = '}') := fun hh => h2 (by simp [hh])
    have hb : ¬(c = '{') := fun hh => h1 (by simp [hh])
    rw [List.cons_append, flatBody]
    simp only [hc, hb, if_false]
    rw [ih post (fun hh => h1 (List.mem_cons_of_mem _ hh))
        (fun hh => h2 (List.mem_cons_of_mem _ hh))]
    rfl

theorem findFlatMatch_sound : ∀ {l r : List Char}, findFlatMatch l = some r →
    ∃ pre body post, l = pre ++ '{' :: (body ++ '}' :: post) ∧
      r = '{' :: (body ++ ['}']) ∧ '{' ∉ body ∧ '}' ∉ body := by
  intro l
  induction l with
  | nil => intro r h; simp [findFlatMatch] at h
  | cons c rest ih =>
    intro r h
    by_cases hb : c = '{'
    · subst hb
      rw [findFlatMatch] at h
      simp only [if_pos rfl] at h
      rcases hfb : flatBody rest with _ | body
      · rw [hfb] at h
        obtain ⟨pre, body, post, hrest, hr, h1, h2⟩ := ih h
        exact ⟨'{' :: pre, body, post, by simp [hrest], hr, h1, h2⟩
      · rw [hfb] at h
        obtain ⟨post, hrest, h1, h2⟩ := flatBody_sound hfb
        refine ⟨[], body, post, by simp [hrest], ?_, h1, h2⟩
        cases h
        simp
    · rw [findFlatMatch] at h
      simp only [hb, if_false] at h
      obtain ⟨pre, body, post, hrest, hr, h1, h2⟩ := ih h
      exact ⟨c :: pre, body, post, by simp [hrest], hr, h1, h2⟩

theorem findFlatMatch_isSome : ∀ (pre body post : List Char), '{' ∉ body → '}' ∉ body →
    (findFlatMatch (pre ++ '{' :: (body ++ '}' :: post))).isSome := by
  intro pre
  induction pre with
  | nil =>
    intro body post h1 h2
    rw [List.nil_append, findFlatMatch]
    simp only [if_pos rfl]
    rw [flatBody_complete body post h1 h2]
    rfl
  | cons c pre ih =>
    intro body post h1 h2
    rw [List.cons_append, findFlatMatch]
    by_cases hb : c = '{'
    · simp only [hb, if_pos rfl]
      rcases hfb : flatBody (pre ++ '{' :: (body ++ '}' :: post)) with _ | b
      · exact ih body post h1 h2
      · rfl
    · simp only [hb, if_false]
      exact ih body post h1 h2

/-! # Claim theorems -/

/-- C2, counterexample.  The claim says frame extraction samples at
`1 frame per max(gap, 1) seconds`.  In the code the gap is passed into the
filter unclamped: a video with unknown duration has
`gap = get_capture_gap 0 = 0` and its ffmpeg `-vf` argument is the
degenerate `"fps=1/0"`, not the `"fps=1/1"` the claimed clamping would
produce. -/
theorem C2_counterexample :
    get_capture_gap 0 = 0 ∧
    (extract_frames_args "/tmp" c2GapZeroVideo)[3]? = some "fps=1/0" ∧
    fps_filter (max (get_capture_gap 0) 1) = "fps=1/1" ∧
    fps_filter (get_capture_gap 0) ≠ fps_filter (max (get_capture_gap 0) 1) :=
  ⟨by decide, by decide, by decide, by decide⟩

/-- C2, amended: the ffmpeg invocation uses the raw sampling filter
`"fps=1/" ++ gap` with no clamping (so gap 0 yields the degenerate
`"fps=1/0"` request), and for every duration `d` the gap is `⌊d / 3⌋`
(on whole-second durations: natural division by 3), in the exact-rational
model of the `f32` arithmetic. -/
theorem C2_amended :
    (∀ (temp : String) (v : Video),
        (extract_frames_args temp v)[3]? = some ("fps=1/" ++ toString v.gap)) ∧
    (∀ d : ℚ, get_capture_gap d = ⌊d / 3⌋) ∧
    (∀ n : ℕ, get_capture_gap (n : ℚ) = ((n / 3 : ℕ) : Int)) ∧
    fps_filter (get_capture_gap 0) = "fps=1/0" := by
  refine ⟨fun temp v => rfl, get_capture_gap_eq_floor, fun n => ?_, by decide⟩
  rw [get_capture_gap_eq_floor]
  rw [show ((3 : ℚ)) = ((3 : ℕ) : ℚ) by norm_num]
  exact_mod_cast Rat.floor_natCast_div_natCast n 3

/-- C3, counterexample.  On the nested input `"{{}}"` the first outermost
balanced-brace substring is the whole `"{{}}"`, but `extract_json` (whose
regex, under the regex crate's reading of `(?R)` as the CRLF flag, matches
only flat brace pairs) returns the inner `"{}"`. -/
theorem C3_counterexample :
    extract_json "\x7b\x7b\x7d\x7d" = some "\x7b\x7d" ∧
    extractJsonSpec "\x7b\x7b\x7d\x7d" = some "\x7b\x7b\x7d\x7d" ∧
    extract_json "\x7b\x7b\x7d\x7d" ≠ extractJsonSpec "\x7b\x7b\x7d\x7d" :=
  ⟨by decide, by decide, by decide⟩

/-- C3, amended: `extract_json` returns the leftmost substring consisting
of an opening brace, brace-free text and a closing brace — on the spec's
example (which contains no nested braces) this is exactly the expected
JSON object — and it returns `none` exactly when the input contains no
such flat brace pair. -/
theorem C3_amended :
    extract_json "noise \x7b\"title\":\"a\",\"description\":\"b\",\"keywords\":[\"c\"]\x7d trailing"
      = some "\x7b\"title\":\"a\",\"description\":\"b\",\"keywords\":[\"c\"]\x7d" ∧
    (∀ s r, extract_json s = some r →
      ∃ pre body post, s.data = pre ++ '{' :: (body ++ '}' :: post) ∧
        r.data = '{' :: (body ++ ['}']) ∧ '{' ∉ body ∧ '}' ∉ body) ∧
    (∀ s, extract_json s = none ↔
      ¬∃ pre body post, s.data = pre ++ '{' :: (body ++ '}' :: post) ∧
        '{' ∉ body ∧ '}' ∉ body) := by
  refine ⟨by decide, ?_, ?_⟩
  · intro s r h
    unfold extract_json at h
    rw [Option.map_eq_some'] at h
    obtain ⟨m, hm, rfl⟩ := h
    obtain ⟨pre, body, post, hs, hr, h1, h2⟩ := findFlatMatch_sound hm
    exact ⟨pre, body, post, hs, by simp [hr], h1, h2⟩
  · intro s
    constructor
    · intro h hex
      obtain ⟨pre, body, post, hs, h1, h2⟩ := hex
      have := findFlatMatch_isSome pre body post h1 h2
      rw [← hs] at this
      unfold extract_json at h
      rw [Option.map_eq_none'] at h
      rw [h] at this
      simp at this
    · intro hnex
      rcases hfm : extract_json s with _ | r
      · rfl
      · exfalso
        unfold extract_json at hfm
        rw [Option.map_eq_some'] at hfm
        obtain ⟨m, hm, _⟩ := hfm
        obtain ⟨pre, body, post, hs, _, h1, h2⟩ := findFlatMatch_sound hm
        exact hnex ⟨pre, body, post, hs, h1, h2⟩

/-- C3, witness for the amended theorem: the soundness part applied to the
concrete input `"x{a}"`, whose match is `"{a}"`. -/
theorem C3_amended_witness :
    ∃ pre body post, ("x\x7ba\x7d" : String).data = pre ++ '{' :: (body ++ '}' :: post) ∧
      ("\x7ba\x7d" : String).data = '{' :: (body ++ ['}']) ∧ '{' ∉ body ∧ '}' ∉ body :=
  C3_amended.2.1 "x\x7ba\x7d" "\x7ba\x7d" (by decide)

/-- C4, counterexample.  The claim says replacement text is never rescanned
for further tokens.  With a title containing the literal token `%K`, the
chained `str::replace` passes substitute it: template `"%T"` on a video
titled `"a%Kb"` (keywords `["k"]`) yields `"akb"`, not `"a%Kb"`. -/
theorem C4_counterexample :
    create_new_file_name c4TokenVideo "%T" = "akb" ∧
    create_new_file_name c4TokenVideo "%T" ≠ "a%Kb" :=
  ⟨by decide, by decide⟩

/-- C4, amended: substitution is seven chained global replacements in the
fixed order Y, M, D, T, K, J, F, each pass rescanning the whole
intermediate string.  A token of a later pass embedded in substituted text
is therefore substituted again (`"a%Kb"` becomes `"akb"`), while a token
of an earlier pass survives (`%T` introduced by the `%K` pass stays
literal); the spec's own example title `"100% K done"` contains no literal
token, so its output is the expected one. -/
theorem C4_amended :
    create_new_file_name c4SpecVideo "%T_%K" = "100% K done_zsolna-velo" ∧
    create_new_file_name c4TokenVideo "%T" = "akb" ∧
    create_new_file_name c4OrderVideo "%K" = "%T" :=
  ⟨by decide, by decide, by decide⟩

/-- C10: for an input path whose filename has no dot, `create_new_path`
returns the parent directory joined with the new basename followed by a
trailing dot and the empty extension, because the dot separator is
appended unconditionally. -/
theorem C10_trailing_dot (dir fname newName : String)
    (h1 : fname.data ≠ [])
    (h2 : '/' ∉ fname.data)
    (h3 : '.' ∉ fname.data)
    (h4 : dir.data.getLast? ≠ some '/') :
    create_new_path (dir ++ "/" ++ fname) newName
      = some (dir ++ "/" ++ newName ++ ".") := by
  have hdata : (dir ++ "/" ++ fname).data = dir.data ++ '/' :: fname.data := by
    simp [String.data_append]
  have hsplit : splitLastOn '/' (dir ++ "/" ++ fname).data
      = some (dir.data, fname.data) := by
    rw [hdata]; exact splitLastOn_append _ _ h2
  have hne : ¬(dir ++ "/" ++ fname = "") := by
    intro h
    have hz : (dir ++ "/" ++ fname).data = [] := by rw [h]
    rw [hdata] at hz
    simp at hz
  have hnr : ¬(dir ++ "/" ++ fname = "/") := by
    intro h
    have hz : (dir ++ "/" ++ fname).data = ['/'] := by rw [h]
    rw [hdata] at hz
    have hlen := congrArg List.length hz
    simp only [List.length_append, List.length_cons, List.length_nil] at hlen
    have hfz : fname.data.length = 0 := by omega
    exact h1 (List.length_eq_zero.mp hfz)
  have hparent : path_parent (dir ++ "/" ++ fname)
      = some (if dir.data = [] then "/" else String.mk dir.data) := by
    unfold path_parent
    rw [if_neg (by simp [hne, hnr]), hsplit]
  have hext : path_extension (dir ++ "/" ++ fname) = none := by
    unfold path_extension path_file_name
    rw [hsplit]
    simp only [if_neg h1]
    rcases hf : fname.data with _ | ⟨c, rest⟩
    · exact absurd hf h1
    · have : splitLastOn '.' rest = none := by
        apply splitLastOn_eq_none
        intro hmem
        exact h3 (by rw [hf]; exact List.mem_cons_of_mem _ hmem)
      simp [file_stem_ext, hf, this]
  unfold create_new_path
  rw [hext, hparent]
  simp only [Option.getD_none, Option.map_some']
  congr 1
  by_cases hd : dir.data = []
  · have hdir : dir = "" := String.ext hd
    subst hdir
    simp only [if_pos rfl]
    unfold path_push
    rw [if_neg (by intro h; exact absurd (congrArg String.data h) (by decide))]
    rw [if_pos (by decide)]
    apply String.ext
    simp [String.data_append]
  · rw [if_neg hd]
    have hmk : String.mk dir.data = dir := rfl
    rw [hmk]
    unfold path_push
    rw [if_neg (fun h => hd (congrArg String.data h))]
    rw [if_neg h4]
    apply String.ext
    simp [String.data_append]

/-- C10, witness: `create_new_path "/a/b/clip" "x" = some "/a/b/x."`. -/
theorem C10_trailing_dot_witness :
    create_new_path "/a/b/clip" "x" = some "/a/b/x." :=
  C10_trailing_dot "/a/b" "clip" "x" (by decide) (by decide) (by decide) (by decide)

/-! ## Lemmas on seqIds and the admission state machine (C7) -/

theorem seqIds_snoc : ∀ (n : Nat) (k : Int), seqIds k (n + 1) = seqIds k n ++ [k + n] := by
  intro n
  induction n with
  | zero => intro k; simp [seqIds]
  | succ m ih =>
    intro k
    rw [seqIds, ih (k + 1), seqIds]
    have : k + 1 + (m : Int) = k + ((m : Nat) + 1 : Nat) := by push_cast; ring
    rw [List.cons_append, this]

theorem seqIds_getLast (k : Int) (n : Nat) :
    (seqIds k (n + 1)).getLast? = some (k + n) := by
  rw [seqIds_snoc]
  exact List.getLast?_concat _

theorem seqIds_chain : ∀ (n : Nat) (k : Int),
    List.Chain' (fun a b => a < b) (seqIds k n)
  | 0, _ => by simp [seqIds]
  | 1, k => by simp [seqIds]
  | n + 2, k => by
    have htail := seqIds_chain (n + 1) (k + 1)
    rw [seqIds] at htail ⊢
    rw [seqIds, List.chain'_cons]
    exact ⟨by omega, htail⟩

theorem Video.new_ok_fields {hash : String → String} {probe : ProbeOutcome}
    {path : String} {nid : Int} {v : Video}
    (h : Video.new hash probe path nid = .ok v) :
    v.numeric_id = nid ∧ v.resume = Resume.empty ∧ v.skip = false := by
  unfold Video.new at h
  split at h
  · exact absurd h (by simp)
  · split at h
    · exact absurd h (by simp)
    · cases h
      exact ⟨rfl, rfl, rfl⟩

theorem add_video_videos (hash : String → String) (st : AspargusState)
    (inp : AdmissionInput) :
    (add_video hash st inp).1.videos = st.videos ∨
    ∃ v, Video.new hash inp.probe inp.path (get_new_video_numeric_id st) = .ok v ∧
      (add_video hash st inp).1.videos = st.videos ++ [v] := by
  unfold add_video
  by_cases hf : inp.isFile
  · rw [if_pos hf]
    rcases hv : Video.new hash inp.probe inp.path (get_new_video_numeric_id st) with e | v
    · left
      cases e <;> rfl
    · right
      exact ⟨v, rfl, rfl⟩
  · rw [if_neg hf]
    left
    rfl

theorem wrap32_add_left (a b : Int) : wrap32 (wrap32 a + b) = wrap32 (a + b) := by
  unfold wrap32
  omega

theorem wrap32_eq_self {k : Int} (h1 : -2147483648 ≤ k) (h2 : k < 2147483648) :
    wrap32 k = k := by
  unfold wrap32
  omega

theorem seqIds_mem_bounds : ∀ {n : Nat} {k x : Int},
    x ∈ seqIds k n → k ≤ x ∧ x < k + n := by
  intro n
  induction n with
  | zero => intro k x hx; simp [seqIds] at hx
  | succ m ih =>
    intro k x hx
    rw [seqIds] at hx
    rcases List.mem_cons.mp hx with hh | hh
    · rw [hh]
      refine ⟨le_refl k, ?_⟩
      push_cast
      omega
    · obtain ⟨h1, h2⟩ := ih hh
      refine ⟨by omega, ?_⟩
      push_cast
      omega

theorem get_new_id_of_idsOk {st : AspargusState} (h : idsOk st) :
    get_new_video_numeric_id st = wrap32 (1 + st.videos.length) := by
  unfold get_new_video_numeric_id
  rcases hl : st.videos.getLast? with _ | last
  · have hz : st.videos = [] := List.getLast?_eq_none_iff.mp hl
    rw [hz]
    decide
  · have hn : st.videos ≠ [] := by
      intro hh
      rw [hh] at hl
      simp at hl
    have hpos : 0 < st.videos.length := List.length_pos.mpr hn
    obtain ⟨m, hm⟩ : ∃ m, st.videos.length = m + 1 :=
      ⟨st.videos.length - 1, by omega⟩
    have hmap := congrArg List.getLast? h
    rw [List.getLast?_map, List.getLast?_map, hl, hm, seqIds_getLast] at hmap
    simp only [Option.map_some'] at hmap
    have hlast : last.numeric_id = wrap32 (1 + (m : Int)) := Option.some.inj hmap
    show wrap32 (last.numeric_id + 1) = wrap32 (1 + (st.videos.length : Int))
    rw [hlast, wrap32_add_left, hm]
    unfold wrap32
    omega

theorem idsOk_step {hash : String → String} {st : AspargusState}
    {inp : AdmissionInput} (h : idsOk st) : idsOk (admission_step hash st inp) := by
  have hvids : (admission_step hash st inp).videos = (add_video hash st inp).1.videos := by
    unfold admission_step
    dsimp only
    split <;> rfl
  rcases add_video_videos hash st inp with hsame | ⟨v, hok, happ⟩
  · unfold idsOk
    rw [hvids, hsame]
    exact h
  · unfold idsOk
    rw [hvids, happ]
    have hid := (Video.new_ok_fields hok).1
    rw [List.map_append, List.length_append]
    simp only [List.map_cons, List.map_nil, List.length_cons, List.length_nil]
    rw [h, hid, get_new_id_of_idsOk h, seqIds_snoc, List.map_append]
    rfl

theorem idsOk_admissions (hash : String → String) (inputs : List AdmissionInput) :
    ∀ st : AspargusState, idsOk st → idsOk (admissions hash inputs st) := by
  induction inputs with
  | nil => intro st h; exact h
  | cons inp rest ih =>
    intro st h
    unfold admissions at ih ⊢
    rw [List.foldl_cons]
    exact ih _ (idsOk_step h)

theorem admissions_cons (hash : String → String) (inp : AdmissionInput)
    (rest : List AdmissionInput) (st : AspargusState) :
    admissions hash (inp :: rest) st
      = admissions hash rest (admission_step hash st inp) := rfl

theorem video_new_c7Good_ok (hash : String → String) (nid : Int) :
    ∃ v, Video.new hash c7Good.probe c7Good.path nid = .ok v :=
  ⟨_, rfl⟩

theorem admission_step_c7Good_length (hash : String → String) (st : AspargusState) :
    (admission_step hash st c7Good).videos.length = st.videos.length + 1 := by
  obtain ⟨v, hok⟩ := video_new_c7Good_ok hash (get_new_video_numeric_id st)
  have hvids : (admission_step hash st c7Good).videos
      = (add_video hash st c7Good).1.videos := by
    unfold admission_step
    dsimp only
    split <;> rfl
  rw [hvids]
  unfold add_video
  rw [if_pos (show c7Good.isFile = true from rfl), hok]
  simp

theorem admissions_replicate_length (hash : String → String) :
    ∀ (n : Nat) (st : AspargusState),
      (admissions hash (List.replicate n c7Good) st).videos.length
        = st.videos.length + n := by
  intro n
  induction n with
  | zero => intro st; rfl
  | succ m ih =>
    intro st
    rw [List.replicate_succ, admissions_cons, ih, admission_step_c7Good_length]
    omega

set_option linter.constructorNameAsVariable false in
/-- C7, counterexample.  A catalog state reachable by a sequence of
admissions — exactly 2^31 successful ones — whose numeric ids are not
strictly increasing: the source adds 1 on `i32`, so the 2^31-th id
overflows `i32::MAX` and wraps to `-2^31` (release-build semantics;
a debug build would abort at the same admission). -/
theorem C7_counterexample :
    ¬ List.Chain' (fun a b => a < b)
      ((admissions c7Hash (List.replicate (2 ^ 31) c7Good)
          AspargusState.initial).videos.map (fun v => v.numeric_id)) := by
  intro hchain
  have h : idsOk (admissions c7Hash (List.replicate (2 ^ 31) c7Good)
      AspargusState.initial) :=
    idsOk_admissions c7Hash _ AspargusState.initial rfl
  have hlen : (admissions c7Hash (List.replicate (2 ^ 31) c7Good)
      AspargusState.initial).videos.length = 2 ^ 31 := by
    rw [admissions_replicate_length]
    show (0 : Nat) + 2 ^ 31 = 2 ^ 31
    omega
  unfold idsOk at h
  rw [h, hlen] at hchain
  have hsplit : seqIds 1 (2 ^ 31)
      = seqIds 1 2147483646
          ++ [(1 : Int) + (2147483646 : Nat), (1 : Int) + (2147483647 : Nat)] := by
    rw [show (2 ^ 31 : Nat) = 2147483647 + 1 from by norm_num, seqIds_snoc]
    rw [show (2147483647 : Nat) = 2147483646 + 1 from by norm_num, seqIds_snoc]
    simp
  rw [hsplit, List.map_append] at hchain
  have hpair := (List.chain'_append.mp hchain).2.1
  rw [List.map_cons, List.map_cons, List.map_nil] at hpair
  have hlt := (List.chain'_cons.mp hpair).1
  exact absurd hlt (by decide)

/-- C7 (amended): in every catalog reachable from the empty state by a
sequence of admission attempts — with arbitrary per-file admission
failures interleaved — the numeric ids in catalog order are exactly
`wrap32 1, ..., wrap32 n` (ids are `i32`, and the `+ 1` of
`get_new_video_numeric_id` wraps at `i32::MAX`); consequently, whenever
the catalog holds fewer than 2^31 videos they are exactly `1, 2, ..., n`:
strictly increasing, starting at 1, never reused. -/
theorem C7_numeric_ids (hash : String → String) (inputs : List AdmissionInput) :
    ((admissions hash inputs AspargusState.initial).videos.map (fun v => v.numeric_id))
        = (seqIds 1 (admissions hash inputs AspargusState.initial).videos.length).map wrap32 ∧
    ((admissions hash inputs AspargusState.initial).videos.length < 2 ^ 31 →
      ((admissions hash inputs AspargusState.initial).videos.map (fun v => v.numeric_id))
          = seqIds 1 (admissions hash inputs AspargusState.initial).videos.length ∧
      List.Chain' (fun a b => a < b)
        ((admissions hash inputs AspargusState.initial).videos.map (fun v => v.numeric_id))) := by
  have h : idsOk (admissions hash inputs AspargusState.initial) :=
    idsOk_admissions hash inputs AspargusState.initial rfl
  unfold idsOk at h
  refine ⟨h, fun hlt => ?_⟩
  have hmapid : (seqIds 1 (admissions hash inputs AspargusState.initial).videos.length).map wrap32
      = seqIds 1 (admissions hash inputs AspargusState.initial).videos.length := by
    have hfix : ∀ x ∈ seqIds 1 (admissions hash inputs AspargusState.initial).videos.length,
        wrap32 x = x := by
      intro x hx
      obtain ⟨h1, h2⟩ := seqIds_mem_bounds hx
      apply wrap32_eq_self
      · omega
      · omega
    have h2 : (seqIds 1 (admissions hash inputs AspargusState.initial).videos.length).map wrap32
        = (seqIds 1 (admissions hash inputs AspargusState.initial).videos.length).map id :=
      List.map_congr_left (fun x hx => hfix x hx)
    rw [h2, List.map_id]
  rw [h, hmapid]
  exact ⟨rfl, seqIds_chain _ 1⟩

/-- C7, witness for the amended theorem: a three-attempt sequence (good,
failing, good) yields ids `[1, 2]`, strictly increasing from 1. -/
theorem C7_numeric_ids_witness :
    ((admissions c7Hash [c7Good, c7Bad, c7Good] AspargusState.initial).videos.map
        (fun v => v.numeric_id))
        = seqIds 1 (admissions c7Hash [c7Good, c7Bad, c7Good]
            AspargusState.initial).videos.length ∧
    List.Chain' (fun a b => a < b)
      ((admissions c7Hash [c7Good, c7Bad, c7Good] AspargusState.initial).videos.map
        (fun v => v.numeric_id)) :=
  (C7_numeric_ids c7Hash [c7Good, c7Bad, c7Good]).2 (by decide)


/-! ## Lemmas on metadata parsing (C8) -/

theorem getLast?_cons_or {α : Type} (x : α) (l : List α) :
    (x :: l).getLast? = l.getLast?.or (some x) := by
  cases l with
  | nil => rfl
  | cons b m =>
    have h : (b :: m).getLast?.isSome := List.getLast?_isSome.mpr (by simp)
    rcases ho : (b :: m).getLast? with _ | a
    · rw [ho] at h
      simp at h
    · rw [List.getLast?_cons_cons, ho]
      rfl

theorem metadata_foldl_or : ∀ (values : List String) (a : Option ℚ)
    (b : Option UtcDateTime),
    values.foldl metadata_step (a, b)
      = ((specLastDuration values).or a, (specLastCreationDate values).or b) := by
  intro values
  induction values with
  | nil =>
    intro a b
    simp [specLastDuration, specLastCreationDate]
  | cons v rest ih =>
    intro a b
    rw [List.foldl_cons]
    rcases hd : parse_rfc3339 v with _ | date
    · rcases hf : parse_f32 v with _ | num
      · rw [show metadata_step (a, b) v = (a, b) from by simp [metadata_step, hd, hf]]
        rw [ih a b]
        unfold specLastDuration specLastCreationDate
        rw [List.filterMap_cons, List.filterMap_cons]
        simp [hd, hf]
      · rw [show metadata_step (a, b) v = (some num, b) from by
          simp [metadata_step, hd, hf]]
        rw [ih (some num) b]
        unfold specLastDuration specLastCreationDate
        rw [List.filterMap_cons, List.filterMap_cons]
        simp only [hd, hf, Option.isSome_none, Bool.false_eq_true, if_false]
        rw [getLast?_cons_or, Option.or_assoc]
        simp [hd]
    · rw [show metadata_step (a, b) v = (a, some date) from by simp [metadata_step, hd]]
      rw [ih a (some date)]
      unfold specLastDuration specLastCreationDate
      rw [List.filterMap_cons, List.filterMap_cons]
      simp only [hd, Option.isSome_some, if_true]
      rw [getLast?_cons_or, Option.or_assoc,
        show (Option.some date).or b = some date from rfl]

theorem dedupFirstAux_eq : ∀ (l seen : List String),
    dedupFirstAux seen l = keepFirstOccurrences (l.filter (fun y => decide (y ∉ seen))) := by
  intro l
  induction l with
  | nil =>
    intro seen
    show ([] : List String) = keepFirstOccurrences (([] : List String).filter _)
    rw [List.filter_nil, keepFirstOccurrences.eq_def]
  | cons x rest ih =>
    intro seen
    by_cases hx : x ∈ seen
    · have hfc : (x :: rest).filter (fun y => decide (y ∉ seen))
          = rest.filter (fun y => decide (y ∉ seen)) := by
        simp [List.filter_cons, hx]
      rw [show dedupFirstAux seen (x :: rest) = dedupFirstAux seen rest from by
        simp [dedupFirstAux, hx]]
      rw [hfc]
      exact ih seen
    · have hfc : (x :: rest).filter (fun y => decide (y ∉ seen))
          = x :: rest.filter (fun y => decide (y ∉ seen)) := by
        simp [List.filter_cons, hx]
      rw [show dedupFirstAux seen (x :: rest) = x :: dedupFirstAux (x :: seen) rest from by
        simp [dedupFirstAux, hx]]
      have hpred : rest.filter (fun a => decide (a ≠ x) && decide (a ∉ seen))
          = rest.filter (fun y => decide (y ∉ x :: seen)) := by
        apply List.filter_congr
        intro y _
        by_cases hyx : y = x
        · simp [List.mem_cons, hyx]
        · simp [List.mem_cons, hyx]
      rw [hfc, keepFirstOccurrences.eq_def]
      dsimp only
      rw [ih (x :: seen)]
      congr 1
      rw [List.filter_filter, hpred]

theorem dedupFirst_eq_keepFirst (l : List String) :
    dedupFirst l = keepFirstOccurrences l := by
  unfold dedupFirst
  rw [dedupFirstAux_eq]
  congr 1
  rw [List.filter_eq_self.mpr]
  intro a _
  simp

/-- C8: probe-output parsing removes duplicate lines keeping the first
occurrence of each, then tries every remaining line in original order
first as an RFC3339 timestamp and otherwise as a float, the last
successful parse of each kind winning; on the lines
`["120.5", "2023-05-01T10:00:00Z", "120.5"]` this yields duration `120.5`
and creation date `2023-05-01T10:00:00Z` (epoch second 1682935200). -/
theorem C8_metadata :
    (∀ lines, dedupFirst lines = keepFirstOccurrences lines) ∧
    (∀ values, parse_metadata_to_tuple values
        = (specLastDuration values, specLastCreationDate values)) ∧
    (∀ lines path, get_video_metadata (.ran lines) path
        = .ok (parse_metadata_to_tuple (dedupFirst lines))) ∧
    parse_metadata_to_tuple ["120.5", "2023-05-01T10:00:00Z", "120.5"]
      = (some (120.5 : ℚ), some ⟨1682935200, 0⟩) := by
  refine ⟨dedupFirst_eq_keepFirst, ?_, fun lines path => rfl, ?_⟩
  · intro values
    unfold parse_metadata_to_tuple
    rw [metadata_foldl_or]
    simp
  · rw [show parse_metadata_to_tuple ["120.5", "2023-05-01T10:00:00Z", "120.5"]
        = (some (mkRat 1205 10), some ⟨1682935200, 0⟩) from by decide]
    rw [show (mkRat 1205 10 : ℚ) = (120.5 : ℚ) from by
      rw [Rat.mkRat_eq_div]; norm_num]

/-- C1: contrary to the claim (and to the log line the code itself emits,
which says a bad path "will be ignored"), `add_videos` returns the
admission error and aborts the batch — the paths after the failing one are
never submitted.  On `[missing, present]`, where `missing` is not a file
and `present` admits fine on its own, the call returns `ProcessingError`
and the catalog stays empty, while `[present]` alone is admitted. -/
theorem C1_batch_abort :
    (add_videos c1Hash AspargusState.initial [c1Bad, c1Good]).2
      = .error (.ProcessingError
          "File missing.mp4 does not exist or is not a file, and therefore will be ignored.") ∧
    (add_videos c1Hash AspargusState.initial [c1Bad, c1Good]).1.videos = [] ∧
    ((add_videos c1Hash AspargusState.initial [c1Good]).1.videos.map (fun v => v.path))
      = ["present.mp4"] :=
  ⟨by decide, by decide, by decide⟩

/-! ## Lemmas on mapWithIdx and the parallel frame-extraction fold (C5, C6, C9) -/

theorem mapWithIdx_getElem? (f : Nat → Video → Video) :
    ∀ (l : List Video) (k j : Nat), (mapWithIdx f k l)[j]? = (l[j]?).map (f (k + j)) := by
  intro l
  induction l with
  | nil => intro k j; simp [mapWithIdx]
  | cons v rest ih =>
    intro k j
    cases j with
    | zero => simp [mapWithIdx]
    | succ j =>
      rw [mapWithIdx]
      simp only [List.getElem?_cons_succ]
      rw [ih (k + 1) j, show k + 1 + j = k + (j + 1) from by omega]

theorem mem_mapWithIdx {f : Nat → Video → Video} :
    ∀ {l : List Video} {k : Nat} {w : Video},
      w ∈ mapWithIdx f k l → ∃ i v, v ∈ l ∧ w = f i v := by
  intro l
  induction l with
  | nil => intro k w h; simp [mapWithIdx] at h
  | cons x rest ih =>
    intro k w h
    rw [mapWithIdx] at h
    rcases List.mem_cons.mp h with h | h
    · exact ⟨k, x, List.mem_cons_self _ _, h⟩
    · obtain ⟨i, v, hv, hw⟩ := ih h
      exact ⟨i, v, List.mem_cons_of_mem _ hv, hw⟩

/-- Pointwise and holder characterisation of the worker fold, for any
processing order whose indices are in range and distinct. -/
theorem extract_frames_ordered_spec (outcome : Nat → FfmpegOutcome) :
    ∀ (order : List Nat) (vs : List Video) (holder : Option String),
      (∀ i ∈ order, i < vs.length) → order.Nodup →
      (∀ j, (order.foldl (ffStep outcome) (vs, holder)).1[j]?
          = if j ∈ order then (vs[j]?).map (fun v => applyFfmpeg (outcome j) v)
            else vs[j]?) ∧
      (order.foldl (ffStep outcome) (vs, holder)).2
        = order.foldl (fun h i => recordFatal (outcome i) h) holder := by
  intro order
  induction order with
  | nil =>
    intro vs holder _ _
    constructor
    · intro j
      simp
    · rfl
  | cons i rest ih =>
    intro vs holder hrange hnd
    have hi : i < vs.length := hrange i (List.mem_cons_self _ _)
    obtain ⟨v, hv⟩ : ∃ v, vs[i]? = some v := by
      rw [List.getElem?_eq_getElem hi]
      exact ⟨_, rfl⟩
    have hstep : ffStep outcome (vs, holder) i
        = (vs.set i (applyFfmpeg (outcome i) v), recordFatal (outcome i) holder) := by
      unfold ffStep
      rw [hv]
    have hlen : (vs.set i (applyFfmpeg (outcome i) v)).length = vs.length :=
      List.length_set vs i _
    have hrange' : ∀ a ∈ rest, a < (vs.set i (applyFfmpeg (outcome i) v)).length := by
      intro a ha
      rw [hlen]
      exact hrange a (List.mem_cons_of_mem _ ha)
    have hnd' : rest.Nodup := (List.nodup_cons.mp hnd).2
    have hni : i ∉ rest := (List.nodup_cons.mp hnd).1
    obtain ⟨ihv, ihh⟩ := ih (vs.set i (applyFfmpeg (outcome i) v))
      (recordFatal (outcome i) holder) hrange' hnd'
    constructor
    · intro j
      rw [List.foldl_cons, hstep, ihv j]
      by_cases hji : j = i
      · subst hji
        rw [if_neg hni, if_pos (List.mem_cons_self _ _), hv]
        simp [List.getElem?_set_self, hi]
      · simp only [List.getElem?_set_ne (show i ≠ j from fun hh => hji hh.symm)]
        by_cases hjr : j ∈ rest
        · rw [if_pos hjr, if_pos (List.mem_cons_of_mem _ hjr)]
        · rw [if_neg hjr, if_neg (by
            intro hmem
            rcases List.mem_cons.mp hmem with hh | hh
            · exact hji hh
            · exact hjr hh)]
    · rw [List.foldl_cons, hstep, ihh, List.foldl_cons]

theorem perm_any_eq {l1 l2 : List Nat} (h : l1.Perm l2) (p : Nat → Bool) :
    l1.any p = l2.any p := by
  cases h2 : l2.any p
  · cases h1 : l1.any p
    · rfl
    · exfalso
      rw [List.any_eq_true] at h1
      obtain ⟨x, hx, hp⟩ := h1
      have hc : l2.any p = true := List.any_eq_true.mpr ⟨x, h.mem_iff.mp hx, hp⟩
      rw [h2] at hc
      exact absurd hc (by simp)
  · rw [List.any_eq_true] at h2
    obtain ⟨x, hx, hp⟩ := h2
    exact List.any_eq_true.mpr ⟨x, h.mem_iff.mpr hx, hp⟩

/-- The single-assignment error cell only depends on whether some processed
index hit the missing decoder binary: first-writer-wins is unobservable
because the recorded message is a constant. -/
theorem ff_holder_fold (outcome : Nat → FfmpegOutcome) :
    ∀ (order : List Nat),
    order.foldl (fun h i => recordFatal (outcome i) h) none
      = (if order.any (fun i => decide (outcome i = .binaryMissing))
         then some ffmpegFatalText else none) := by
  have main : ∀ (order : List Nat) (holder : Option String),
      order.foldl (fun h i => recordFatal (outcome i) h) holder
        = match holder with
          | some m => some m
          | none => if order.any (fun i => decide (outcome i = .binaryMissing))
                    then some ffmpegFatalText else none := by
    intro order
    induction order with
    | nil => intro holder; cases holder <;> simp
    | cons i rest ih =>
      intro holder
      rw [List.foldl_cons, ih]
      cases holder with
      | some m => simp [recordFatal]; cases outcome i <;> simp [recordFatal]
      | none =>
        rcases ho : outcome i with _ | _ | th <;>
          simp [recordFatal, ho, List.any_cons]
  intro order
  rw [main order none]

/-- Full characterisation of the frame-extraction fold for an arbitrary
parallel schedule (any permutation of the video indices): the result does
not depend on the order, each video is transformed by its own outcome
alone, and the error cell holds the constant fatal message exactly when
some worker hit the missing binary. -/
theorem extract_frames_ordered_perm (outcome : Nat → FfmpegOutcome)
    (order : List Nat) (vs : List Video)
    (hperm : order.Perm (List.range vs.length)) :
    extract_frames_ordered outcome order vs
      = (mapWithIdx (fun i v => applyFfmpeg (outcome i) v) 0 vs,
         if (List.range vs.length).any (fun i => decide (outcome i = .binaryMissing))
         then some ffmpegFatalText else none) := by
  have hmem : ∀ i ∈ order, i < vs.length := fun i hi =>
    List.mem_range.mp (hperm.mem_iff.mp hi)
  have hnd : order.Nodup := hperm.nodup_iff.mpr (List.nodup_range _)
  obtain ⟨hvid, hhold⟩ := extract_frames_ordered_spec outcome order vs none hmem hnd
  unfold extract_frames_ordered
  have h1 : (order.foldl (ffStep outcome) (vs, none)).1
      = mapWithIdx (fun i v => applyFfmpeg (outcome i) v) 0 vs := by
    apply List.ext_getElem?
    intro j
    rw [hvid j, mapWithIdx_getElem?]
    by_cases hj : j < vs.length
    · rw [if_pos (hperm.mem_iff.mpr (List.mem_range.mpr hj)), Nat.zero_add]
    · rw [if_neg (fun hmem2 => hj (List.mem_range.mp (hperm.mem_iff.mp hmem2)))]
      rw [List.getElem?_eq_none (by omega)]
      rfl
  have h2 : (order.foldl (ffStep outcome) (vs, none)).2
      = (if (List.range vs.length).any (fun i => decide (outcome i = .binaryMissing))
         then some ffmpegFatalText else none) := by
    rw [hhold, ff_holder_fold, perm_any_eq hperm]
  rw [← h1, ← h2]

/-- The videos after `extract_frames`, independently of scheduling. -/
theorem extract_frames_videos (outcome : Nat → FfmpegOutcome) (st : AspargusState) :
    (extract_frames outcome st).1.videos
      = mapWithIdx (fun i v => applyFfmpeg (outcome i) v) 0 st.videos := by
  unfold extract_frames
  dsimp only
  rw [extract_frames_ordered_perm outcome _ _ (List.Perm.refl _)]

/-- The result of `extract_frames`, independently of scheduling. -/
theorem extract_frames_result (outcome : Nat → FfmpegOutcome) (st : AspargusState) :
    (extract_frames outcome st).2
      = (if (List.range st.videos.length).any (fun i => decide (outcome i = .binaryMissing))
         then .error (.ProcessingError ("Error while extracting frames: " ++ ffmpegFatalText))
         else .ok ()) := by
  unfold extract_frames
  dsimp only
  rw [extract_frames_ordered_perm outcome _ _ (List.Perm.refl _)]
  cases hany : (List.range st.videos.length).any
      (fun i => decide (outcome i = .binaryMissing)) <;> rfl

/-- C5, counterexample.  The claim says a video whose decoder merely runs
and fails (non-zero exit or no thumbnails) gets its skip flag set.  The
source never inspects the decoder's exit status: with video A hitting the
missing binary and video B's decoder running but producing no thumbnails,
the batch returns the fatal error once, but B's skip flag stays `false`
(its thumbnail list is merely empty). -/
theorem C5_counterexample :
    (extract_frames c5Outcome c5State).2
      = .error (.ProcessingError ("Error while extracting frames: " ++ ffmpegFatalText)) ∧
    ((extract_frames c5Outcome c5State).1.videos.map (fun v => v.skip)) = [false, false] ∧
    ((extract_frames c5Outcome c5State).1.videos.map (fun v => v.thumbnails)) = [[], []] :=
  ⟨by decide, by decide, by decide⟩

/-- C5, amended: for every parallel schedule (any permutation `order` of
the video indices), frame extraction yields the same result — each video
transformed by its own ffmpeg outcome alone, so no video blocks another —
and the batch call returns the constant fatal error exactly once, iff some
worker hit the missing decoder binary (the mutex-guarded first-writer-wins
cell records a constant message, so which worker wrote first is
unobservable).  A video whose ffmpeg spawn fails with a non-NotFound error
gets `skip = true`; a video whose decoder runs — regardless of exit status
— only gets the globbed thumbnail list (possibly empty), and its skip flag
is unchanged. -/
theorem C5_amended (outcome : Nat → FfmpegOutcome) (order : List Nat)
    (st : AspargusState) (hperm : order.Perm (List.range st.videos.length)) :
    extract_frames_ordered outcome order st.videos
        = (mapWithIdx (fun i v => applyFfmpeg (outcome i) v) 0 st.videos,
           if (List.range st.videos.length).any (fun i => decide (outcome i = .binaryMissing))
           then some ffmpegFatalText else none) ∧
    (extract_frames outcome st).2
        = (if (List.range st.videos.length).any (fun i => decide (outcome i = .binaryMissing))
           then .error (.ProcessingError ("Error while extracting frames: " ++ ffmpegFatalText))
           else .ok ()) ∧
    (∀ (i : Nat) (v : Video), st.videos[i]? = some v →
        (extract_frames outcome st).1.videos[i]? = some (applyFfmpeg (outcome i) v)) := by
  refine ⟨extract_frames_ordered_perm outcome order st.videos hperm,
    extract_frames_result outcome st, ?_⟩
  intro i v hv
  rw [extract_frames_videos, mapWithIdx_getElem?, hv, Nat.zero_add]
  rfl

/-- C5, witness: the amended theorem applied to the two-video batch of the
spec's testable property 6, processed in the reversed order `[1, 0]`. -/
theorem C5_amended_witness :
    (extract_frames_ordered c5Outcome [1, 0] c5State.videos
        = (mapWithIdx (fun i v => applyFfmpeg (c5Outcome i) v) 0 c5State.videos,
           if (List.range c5State.videos.length).any
               (fun i => decide (c5Outcome i = .binaryMissing))
           then some ffmpegFatalText else none) ∧
     (extract_frames c5Outcome c5State).2
        = (if (List.range c5State.videos.length).any
               (fun i => decide (c5Outcome i = .binaryMissing))
           then .error (.ProcessingError ("Error while extracting frames: " ++ ffmpegFatalText))
           else .ok ()) ∧
     (∀ (i : Nat) (v : Video), c5State.videos[i]? = some v →
        (extract_frames c5Outcome c5State).1.videos[i]?
          = some (applyFfmpeg (c5Outcome i) v))) :=
  C5_amended c5Outcome [1, 0] c5State (by decide)

/-! ## Lemmas on the sequential model stages and rename (C6) -/

theorem indicesWhere_ge {p : Video → Bool} :
    ∀ {l : List Video} {k j : Nat}, j ∈ indicesWhere p k l → k ≤ j := by
  intro l
  induction l with
  | nil => intro k j h; simp [indicesWhere] at h
  | cons w rest ih =>
    intro k j h
    rw [indicesWhere] at h
    by_cases hp : p w
    · rw [if_pos hp] at h
      rcases List.mem_cons.mp h with h | h
      · omega
      · have := ih h
        omega
    · rw [if_neg hp] at h
      have := ih h
      omega

theorem not_mem_indicesWhere {p : Video → Bool} :
    ∀ {l : List Video} {k j : Nat} {v : Video},
      l[j]? = some v → p v = false → (k + j) ∉ indicesWhere p k l := by
  intro l
  induction l with
  | nil => intro k j v h _; simp at h
  | cons w rest ih =>
    intro k j v h hp
    cases j with
    | zero =>
      simp only [List.getElem?_cons_zero, Option.some.injEq] at h
      subst h
      rw [indicesWhere, if_neg (by rw [hp]; simp)]
      intro hmem
      have := indicesWhere_ge hmem
      omega
    | succ j =>
      simp only [List.getElem?_cons_succ] at h
      rw [indicesWhere]
      intro hmem
      have hmem2 : k + (j + 1) ∈ indicesWhere p (k + 1) rest := by
        by_cases hp2 : p w
        · rw [if_pos hp2] at hmem
          rcases List.mem_cons.mp hmem with hh | hh
          · omega
          · exact hh
        · rw [if_neg hp2] at hmem
          exact hmem
      have := ih h hp (k := k + 1) (j := j)
      rw [show k + 1 + j = k + (j + 1) from by omega] at this
      exact this hmem2

/-- C6, counterexample.  The claim says the rename stage performs no
filesystem move for a skipped video.  `rename_videos` iterates over all
videos with no skip check: on a catalog holding one skipped video it still
attempts exactly one move for it. -/
theorem C6_counterexample :
    (rename_videos "%F-copy" c6State).2 = [("/m/a.mp4", some "/m/a-copy.mp4")] ∧
    (rename_videos "%F-copy" c6State).2 ≠ [] :=
  ⟨by decide, by decide⟩

/-- C6, amended: the computer-vision stage (both topologies) and the
resume stage leave a skipped video unchanged and issue no model call for
it, while the other videos continue; the rename stage, however, is applied
to every video including skipped ones — one attempted filesystem move per
video, in catalog order — and writes no video field (in particular `path`
is unchanged for all videos, skipped or not). -/
theorem C6_amended (st : AspargusState) (respCv : Nat → Option String)
    (respOnly respTxt : Nat → Option Resume) (template : String) :
    (∀ (i : Nat) (v : Video), st.videos[i]? = some v → v.skip = true →
        (run_computer_vision_model respCv st).videos[i]? = some v ∧
        (run_only_computer_vision_model respOnly st).videos[i]? = some v ∧
        (run_resume_model respTxt st).videos[i]? = some v ∧
        i ∉ cv_model_calls st ∧ i ∉ resume_model_calls st) ∧
    (rename_videos template st).1 = st ∧
    (∀ (i : Nat) (v : Video), st.videos[i]? = some v →
        ((rename_videos template st).2)[i]?
          = some (v.path, create_new_path v.path (create_new_file_name v template))) := by
  refine ⟨?_, rfl, ?_⟩
  · intro i v hv hskip
    refine ⟨?_, ?_, ?_, ?_, ?_⟩
    · show (mapWithIdx _ 0 st.videos)[i]? = some v
      rw [mapWithIdx_getElem?, hv]
      simp [hskip]
    · show (mapWithIdx _ 0 st.videos)[i]? = some v
      rw [mapWithIdx_getElem?, hv]
      simp [hskip]
    · show (mapWithIdx _ 0 st.videos)[i]? = some v
      rw [mapWithIdx_getElem?, hv]
      simp [hskip]
    · have := not_mem_indicesWhere (p := fun v => !v.skip) hv (by simp [hskip])
        (k := 0)
      rw [Nat.zero_add] at this
      exact this
    · have := not_mem_indicesWhere (p := fun v => !v.skip && !(v.story = "")) hv
        (by simp [hskip]) (k := 0)
      rw [Nat.zero_add] at this
      exact this
  · intro i v hv
    rw [show (rename_videos template st).2
        = st.videos.map (fun v =>
            (v.path, create_new_path v.path (create_new_file_name v template)))
      from rfl]
    rw [List.getElem?_map, hv]
    rfl

/-- C6, witness: the amended theorem applied to the one-video catalog
whose video is skipped. -/
theorem C6_amended_witness :
    ((run_computer_vision_model (fun _ => some "story") c6State).videos[0]? = some c6Skipped ∧
     (run_only_computer_vision_model (fun _ => some Resume.empty) c6State).videos[0]?
        = some c6Skipped ∧
     (run_resume_model (fun _ => some Resume.empty) c6State).videos[0]? = some c6Skipped ∧
     0 ∉ cv_model_calls c6State ∧ 0 ∉ resume_model_calls c6State) ∧
    ((rename_videos "%T" c6State).2)[0]?
      = some (c6Skipped.path, create_new_path c6Skipped.path
          (create_new_file_name c6Skipped "%T")) :=
  ⟨(C6_amended c6State (fun _ => some "story") (fun _ => some Resume.empty)
      (fun _ => some Resume.empty) "%T").1 0 c6Skipped (by decide) (by decide),
   (C6_amended c6State (fun _ => some "story") (fun _ => some Resume.empty)
      (fun _ => some Resume.empty) "%T").2.2 0 c6Skipped (by decide)⟩


/-! ## Lemmas on the JSON export and the pipeline resume invariant (C9) -/

theorem asStringList_map (l : List String) : asStringList (l.map Json.str) = some l := by
  induction l with
  | nil => rfl
  | cons s rest ih =>
    rw [List.map_cons, asStringList, ih]
    rfl

theorem decodeResume_toJson (r : Resume) : decodeResume (Resume.toJson r) = some r := by
  unfold decodeResume Resume.toJson
  simp [jsonField, asStringList_map]

theorem decodeEntry_toJson (v : Video) :
    decodeEntry (Video.toJson v) = some (v.path, v.resume) := by
  unfold decodeEntry Video.toJson
  simp [jsonField]
  rcases hj : Resume.toJson v.resume with s | items | fields
  · have hd := decodeResume_toJson v.resume
    rw [hj] at hd
    exact absurd hd (by rw [show decodeResume (Json.str s) = none from rfl]; simp)
  · have hd := decodeResume_toJson v.resume
    rw [hj] at hd
    exact absurd hd (by rw [show decodeResume (Json.arr items) = none from rfl]; simp)
  · have hd : decodeResume (Json.obj fields) = some v.resume := by
      rw [← hj]
      exact decodeResume_toJson v.resume
    rw [hd]

theorem decodeEntries_map (vs : List Video) :
    decodeEntries (vs.map Video.toJson) = some (vs.map (fun v => (v.path, v.resume))) := by
  induction vs with
  | nil => rfl
  | cons v rest ih =>
    rw [List.map_cons, decodeEntries, decodeEntry_toJson, ih, List.map_cons]

theorem reparseExport_export (vs : List Video) :
    reparseExport (export_to_json vs) = some (vs.map (fun v => (v.path, v.resume))) := by
  unfold reparseExport export_to_json
  exact decodeEntries_map vs

/-- Resumes are empty for every video right after a run of admissions. -/
theorem resume_empty_add_videos (hash : String → String) :
    ∀ (inputs : List AdmissionInput) (st : AspargusState),
      (∀ v ∈ st.videos, v.resume = Resume.empty) →
      ∀ v ∈ (add_videos hash st inputs).1.videos, v.resume = Resume.empty := by
  intro inputs
  induction inputs with
  | nil => intro st h; exact h
  | cons inp rest ih =>
    intro st h
    have h1 : ∀ v ∈ (add_video hash st inp).1.videos, v.resume = Resume.empty := by
      rcases add_video_videos hash st inp with hsame | ⟨w, hok, happ⟩
      · rw [hsame]
        exact h
      · rw [happ]
        intro v hv
        rcases List.mem_append.mp hv with hv | hv
        · exact h v hv
        · rw [List.mem_singleton.mp hv]
          exact (Video.new_ok_fields hok).2.1
    rw [show add_videos hash st (inp :: rest)
        = (match add_video hash st inp with
           | (st1, .ok _) =>
             add_videos hash
               { st1 with videos_number := wrap32 (st1.videos_number + 1) } rest
           | (st1, .error e) => (st1, .error e)) from rfl]
    rcases hav : add_video hash st inp with ⟨st1, res⟩
    rw [hav] at h1
    cases res with
    | ok u => exact ih { st1 with videos_number := wrap32 (st1.videos_number + 1) } h1
    | error e => exact h1

theorem applyFfmpeg_resume (o : FfmpegOutcome) (v : Video) :
    (applyFfmpeg o v).resume = v.resume := by
  cases o <;> rfl

/-- The per-video function of the two-step vision stage keeps the resume. -/
theorem cv_stage_fn_resume (respCv : Nat → Option String) (i : Nat) (w : Video) :
    ((if w.skip = true then w
      else match respCv i with
        | some story => { w with story := story }
        | none => w) : Video).resume = w.resume := by
  by_cases hws : w.skip
  · simp [hws]
  · rcases hr : respCv i with _ | story <;> simp [hws, hr]

/-- The per-video function of the single-step stage keeps the skip flag. -/
theorem only_stage_fn_skip (respOnly : Nat → Option Resume) (i : Nat) (w : Video) :
    ((if w.skip = true then w
      else match respOnly i with
        | some resume => { w with resume := resume }
        | none => w) : Video).skip = w.skip := by
  by_cases hws : w.skip
  · simp [hws]
  · rcases hr : respOnly i with _ | resume <;> simp [hws, hr]

/-- The per-video function of the resume stage keeps the skip flag. -/
theorem resume_stage_fn_skip (respTxt : Nat → Option Resume) (i : Nat) (w : Video) :
    ((if w.skip = true then w
      else if w.story = "" then w
      else match respTxt i with
        | some resume => { w with resume := resume }
        | none => w) : Video).skip = w.skip := by
  by_cases hws : w.skip
  · simp [hws]
  · by_cases hstory : w.story = ""
    · simp [hws, hstory]
    · rcases hr : respTxt i with _ | resume <;> simp [hws, hstory, hr]

/-- The skipped-implies-empty-resume invariant after the whole pipeline. -/
theorem run_pipeline_skip_resume (hash : String → String)
    (inputs : List AdmissionInput) (outcome : Nat → FfmpegOutcome)
    (two_steps : Bool) (respCv : Nat → Option String)
    (respTxt respOnly : Nat → Option Resume) :
    ∀ v ∈ (run_pipeline hash inputs outcome two_steps respCv respTxt respOnly).videos,
      v.skip = true → v.resume = Resume.empty := by
  have hadm : ∀ v ∈ (add_videos hash AspargusState.initial inputs).1.videos,
      v.resume = Resume.empty :=
    resume_empty_add_videos hash inputs AspargusState.initial
      (by intro v hv; simp [AspargusState.initial] at hv)
  have hext : ∀ v ∈ (extract_frames outcome
        (add_videos hash AspargusState.initial inputs).1).1.videos,
      v.resume = Resume.empty := by
    intro v hv
    rw [extract_frames_videos] at hv
    obtain ⟨i, w, hw, rfl⟩ := mem_mapWithIdx hv
    rw [applyFfmpeg_resume]
    exact hadm w hw
  unfold run_pipeline
  by_cases ht : two_steps
  · rw [if_pos ht]
    intro v hv hskip
    obtain ⟨i, w, hw, rfl⟩ := mem_mapWithIdx hv
    rw [resume_stage_fn_skip respTxt i w] at hskip
    rw [if_pos hskip]
    obtain ⟨i2, u, hu, rfl⟩ := mem_mapWithIdx hw
    rw [cv_stage_fn_resume respCv i2 u]
    exact hext u hu
  · rw [if_neg ht]
    intro v hv hskip
    obtain ⟨i, w, hw, rfl⟩ := mem_mapWithIdx hv
    rw [only_stage_fn_skip respOnly i w] at hskip
    rw [if_pos hskip]
    exact hext w hw

/-- C9: the export is the array of per-video objects holding exactly the
keys `path` and `resume` (all other fields — id, story, thumbnails,
creation_date, gap, numeric_id, skip — are omitted); re-parsing the
exported value recovers each video's path/resume pair exactly as in memory
at export time; and in every pipeline-reachable state a skipped video
still has the empty resume, so it appears in the export with empty resume
fields. -/
theorem C9_export (hash : String → String) (inputs : List AdmissionInput)
    (outcome : Nat → FfmpegOutcome) (two_steps : Bool)
    (respCv : Nat → Option String) (respTxt respOnly : Nat → Option Resume) :
    (∀ vs, reparseExport (export_to_json vs)
        = some (vs.map (fun v => (v.path, v.resume)))) ∧
    (∀ v : Video, jsonObjKeys (Video.toJson v) = ["path", "resume"]) ∧
    (∀ v ∈ (run_pipeline hash inputs outcome two_steps respCv respTxt respOnly).videos,
        v.skip = true → v.resume = Resume.empty) :=
  ⟨reparseExport_export, fun _ => rfl,
   run_pipeline_skip_resume hash inputs outcome two_steps respCv respTxt respOnly⟩

/-- C9, witness: a concrete one-video pipeline run in which frame
extraction skips the video; the theorem yields that its exported resume is
empty. -/
theorem C9_export_witness :
    c9SkippedVideo.resume = Resume.empty ∧
    reparseExport (export_to_json [c9SkippedVideo])
      = some [(c9SkippedVideo.path, c9SkippedVideo.resume)] :=
  ⟨(C9_export c1Hash [c9Input] c9Outcome false (fun _ => some "story")
      (fun _ => none) (fun _ => none)).2.2 c9SkippedVideo (by decide) (by decide),
   by
    rw [(C9_export c1Hash [c9Input] c9Outcome false (fun _ => some "story")
        (fun _ => none) (fun _ => none)).1 [c9SkippedVideo]]
    rfl⟩

end AspargusModel
